import Mathlib

/-
Verification development for the go-semantic-chunking repository.

The Go sources under verification are shallowly embedded as Lean
definitions: Go strings become `String`, Go slices become `List`,
Go `int` token counts become `Nat`, Go `float32` score parameters
become `ℚ`, and the fallible tokenizer becomes a function into
`Except`.  Machine floating point never influences control flow in
the verified claims: the DP chunker's similarity values are abstracted
as an arbitrary `Nat → ℚ` function, which is sound because the claims
proved about the chunker (partitioning and token bounds) hold for
every similarity assignment.
-/

namespace SemChunk

/-- A tokenizer encoding: the source only ever inspects `GetIds()`,
so we keep just the id list. -/
structure Encoding where
  ids : List Nat
deriving DecidableEq

/-- The opaque tokenizer capability: `EncodeSingle` may fail. -/
def Tok : Type := String → Except String Encoding

/-- Translation of `CountTokens` (src/sentence_parser.go lines 120-127):
a tokenizer error yields token count 0, otherwise the length of the
encoding's id list. -/
def CountTokens (tok : Tok) (text : String) : Nat :=
  match tok text with
  | Except.error _ => 0
  | Except.ok e => e.ids.length

/-- A transcript frame (text plus optional timing), as consumed by
`ExtractSentencesFromFrames`. -/
structure Frame where
  text : String
  startTime : String
  endTime : String
deriving DecidableEq

/-- Translation of the `Sentence` struct. `embedding` is `[]` until the
batcher fills it, mirroring the `nil` slice in the source. -/
structure Sentence where
  text : String
  startTime : String
  embedding : List ℚ
  tokenCount : Nat
deriving DecidableEq

/-- Character-level model of `strings.Fields` splitting: walk the
character list, collecting maximal runs of non-whitespace characters.
`acc` holds the current word reversed. -/
def fieldsCh : List Char → List Char → List (List Char)
  | [], acc => if acc.isEmpty then [] else [acc.reverse]
  | c :: cs, acc =>
      if c.isWhitespace then
        if acc.isEmpty then fieldsCh cs [] else acc.reverse :: fieldsCh cs []
      else fieldsCh cs (c :: acc)

/-- Model of Go `strings.Fields`: whitespace-separated words, empties
dropped. -/
def fields (s : String) : List String :=
  (fieldsCh s.toList []).map fun l => String.mk l

/-- Model of Go `strings.TrimSpace`. -/
def trimString (s : String) : String :=
  String.mk (((s.toList.dropWhile Char.isWhitespace).reverse.dropWhile
    Char.isWhitespace).reverse)

/-- The sentence-boundary test of the source: the trimmed frame text
ends in `.`, `!` or `?` (a one-character `HasSuffix` check is a test on
the last character). -/
def isBoundary (t : String) : Bool :=
  match (trimString t).toList.reverse with
  | [] => false
  | c :: _ => c = '.' || c = '!' || c = '?'

/-- The builder update of the accumulation loop: write a single space
separator only when the buffer is non-empty, then append the frame
text. -/
def appendFrameText (buf t : String) : String :=
  if buf = "" then t else buf ++ " " ++ t

/-- Helper constructing a sentence exactly as the source does: the
token count is recomputed on the emitted text. -/
def mkSentence (tok : Tok) (text startTime : String) : Sentence :=
  { text := text, startTime := startTime, embedding := [],
    tokenCount := CountTokens tok text }

/-- Translation of the frame-accumulation loop of
`ExtractSentencesFromFrames` (src/sentence_parser.go lines 17-62).
State: remaining frames, current buffer, remembered start time, and
the `isFirstFrame` flag. -/
def provisionalGo (tok : Tok) : List Frame → String → String → Bool → List Sentence
  | [], buf, st, _ =>
      if buf = "" then [] else [mkSentence tok buf st]
  | f :: fs, buf, st, first =>
      let st2 := if first then f.startTime else st
      let buf2 := appendFrameText buf f.text
      if isBoundary f.text then
        mkSentence tok buf2 st2 :: provisionalGo tok fs "" st2 true
      else
        provisionalGo tok fs buf2 st2 false

/-- Translation of the greedy growth inner loop (src/sentence_parser.go
lines 91-102): starting from `chunk`, append following words while the
tokenized candidate stays within `maxT`.  Returns the final chunk text
and how many extra words beyond the first were consumed. -/
def greedyGrow (tok : Tok) (maxT : Nat) (chunk : String) : List String → String × Nat
  | [] => (chunk, 0)
  | w :: ws =>
      let test := chunk ++ " " ++ w
      if CountTokens tok test > maxT then (chunk, 0)
      else
        let g := greedyGrow tok maxT test ws
        (g.1, g.2 + 1)

/-- Translation of the outer word-splitting loop (src/sentence_parser.go
lines 84-114).  The Go loop runs while words remain; each iteration
consumes the first word plus the words taken by `greedyGrow`, so a fuel
of `words.length` can never be exhausted (proved in the C10 theorem).
-/
def splitWordsF (tok : Tok) (maxT : Nat) (st : String) : Nat → List String → List Sentence
  | _, [] => []
  | 0, _ :: _ => []
  | fuel + 1, w :: ws =>
      let g := greedyGrow tok maxT w ws
      mkSentence tok g.1 st :: splitWordsF tok maxT st fuel (ws.drop g.2)

/-- The per-sentence oversize pass (src/sentence_parser.go lines 69-115):
sentences within the cap pass through, as do oversized sentences with no
words; otherwise the greedy word split runs. -/
def splitOversize (tok : Tok) (maxT : Nat) (s : Sentence) : List Sentence :=
  if s.tokenCount ≤ maxT then [s]
  else
    let ws := fields s.text
    if ws.isEmpty then [s]
    else splitWordsF tok maxT s.startTime ws.length ws

/-- Translation of `ExtractSentencesFromFrames` (src/sentence_parser.go):
the provisional accumulation pass followed by the oversize split with the
hard-coded 512-token cap (`maxTokens := 512` at line 66). -/
def ExtractSentencesFromFrames (tok : Tok) (frames : List Frame) : List Sentence :=
  if frames.isEmpty then []
  else (provisionalGo tok frames "" "" true).flatMap (splitOversize tok 512)

/-- Translation of the word loop of `ExtractSentencesFromText`
(src/unnamed/part_000 lines 43-74): accumulate words, emitting at words
whose trimmed text ends in a terminator; start times are not applicable
for text input. -/
def textGo (tok : Tok) : List String → String → List Sentence
  | [], buf => if buf = "" then [] else [mkSentence tok buf ""]
  | w :: ws, buf =>
      let buf2 := appendFrameText buf w
      if isBoundary w then mkSentence tok buf2 "" :: textGo tok ws ""
      else textGo tok ws buf2

/-- Translation of `ExtractSentencesFromText` (src/unnamed/part_000):
empty text yields no sentences; otherwise word accumulation followed by
the oversize pass with the caller-supplied `maxSize`. -/
def ExtractSentencesFromText (tok : Tok) (text : String) (maxSize : Nat) : List Sentence :=
  if text = "" then []
  else (textGo tok (fields text) "").flatMap (splitOversize tok maxSize)

/-- Translation of the `ChunkingConfig` struct (src/unnamed/part_001
lines 16-22); the `float32` fields are modelled as rationals. -/
structure ChunkingConfig where
  optimalSize : Nat
  maxSize : Nat
  lambdaSize : ℚ
  chunkPenalty : ℚ
deriving DecidableEq

/-- Translation of `DefaultChunkingConfig` (src/unnamed/part_001 lines
87-94). -/
def DefaultChunkingConfig : ChunkingConfig :=
  { optimalSize := 470, maxSize := 512, lambdaSize := 2, chunkPenalty := 1 }

/-- Translation of the `Chunk` struct (src/unnamed/part_000 lines 12-20). -/
structure Chunk where
  text : String
  startTime : String
  embedding : List ℚ
  numSentences : Nat
  tokenCount : Nat
  chunkIndex : Nat
  sentenceEmbeddings : List (List ℚ)
deriving DecidableEq

/-- Modelled from the spec: the chunker's prefix token array
(`prefix_tok[k]` = sum of the first `k` sentence token counts, §4.3.2);
the DP chunker source is not under src/. -/
def prefixTok (ss : List Sentence) (k : Nat) : Nat :=
  ((ss.take k).map Sentence.tokenCount).sum

/-- Modelled from the spec: `segment_tokens(i, j)` (§4.3.2). -/
def segTokens (ss : List Sentence) (i j : Nat) : Nat :=
  prefixTok ss j - prefixTok ss i

/-- Modelled from the spec: the prefix similarity array (`prefix_sim`,
§4.3.2) over the abstract normalized similarity assignment `sim`. -/
def prefixSim (sim : Nat → ℚ) : Nat → ℚ
  | 0 => 0
  | k + 1 => prefixSim sim k + sim k

/-- Modelled from the spec: `segment_reward(i, j) = prefix_sim[j-1] -
prefix_sim[i]` (§4.3.2). -/
def segReward (sim : Nat → ℚ) (i j : Nat) : ℚ :=
  prefixSim sim (j - 1) - prefixSim sim i

/-- Modelled from the spec: the hinge size penalty (§4.3.3); `none`
marks an illegal segment (`t > max_size`). -/
def sizePenalty (cfg : ChunkingConfig) (t : Nat) : Option ℚ :=
  if t > cfg.maxSize then none
  else if t ≤ cfg.optimalSize then some 0
  else some (cfg.lambdaSize * ((t : ℚ) - (cfg.optimalSize : ℚ)) /
    ((cfg.maxSize : ℚ) - (cfg.optimalSize : ℚ)))

/-- Modelled from the spec: the DP transition value for segment `[i, j)`
on top of predecessor score `di` (§4.3.4); `none` when the segment is
illegal. -/
def transScore (cfg : ChunkingConfig) (sim : Nat → ℚ) (ss : List Sentence)
    (i j : Nat) (di : ℚ) : Option ℚ :=
  (sizePenalty cfg (segTokens ss i j)).map fun p =>
    di + segReward sim i j - p - cfg.chunkPenalty

/-- Keep the better of the current best `(score, start)` pair and a
candidate; a strict comparison keeps the earlier (smaller-`i`)
candidate on ties, the spec's §4.3.4 tie-break. -/
def betterKeep (cur : Option (ℚ × Nat)) (cand : ℚ × Nat) : Option (ℚ × Nat) :=
  match cur with
  | none => some cand
  | some p => if cand.1 > p.1 then some cand else some p

/-- Modelled from the spec: the legal transition candidates `(score, i)`
for position `j`, read from the table prefix computed so far. -/
def candidates (cfg : ChunkingConfig) (sim : Nat → ℚ) (ss : List Sentence)
    (table : List (Option (ℚ × Nat))) (j : Nat) : List (ℚ × Nat) :=
  (List.range j).filterMap fun i =>
    match table[i]? with
    | some (some p) => (transScore cfg sim ss i j p.1).map fun sc => (sc, i)
    | _ => none

/-- Modelled from the spec: `dp[j]` and `start[j]` as the best legal
candidate, `none` when no legal predecessor exists (§4.3.4, §7). -/
def bestChoice (cfg : ChunkingConfig) (sim : Nat → ℚ) (ss : List Sentence)
    (table : List (Option (ℚ × Nat))) (j : Nat) : Option (ℚ × Nat) :=
  (candidates cfg sim ss table j).foldl betterKeep none

/-- Modelled from the spec: the DP table for positions `0..j`;
`dp[0] = 0` and each later entry carries `(dp[j], start[j])`. -/
def dpTable (cfg : ChunkingConfig) (sim : Nat → ℚ) (ss : List Sentence) :
    Nat → List (Option (ℚ × Nat))
  | 0 => [some (0, 0)]
  | j + 1 =>
      let t := dpTable cfg sim ss j
      t ++ [bestChoice cfg sim ss t (j + 1)]

/-- Modelled from the spec: backtracking through `start[]` from `j`
down to `0` (§4.3.5), producing the segment list end-first.  Each step
moves to a strictly smaller index, so fuel `n` suffices. -/
def backtrack (table : List (Option (ℚ × Nat))) : Nat → Nat → Option (List (Nat × Nat))
  | _, 0 => some []
  | 0, _ + 1 => none
  | fuel + 1, j + 1 =>
      match table[j + 1]? with
      | some (some p) =>
          (backtrack table fuel p.2).map fun segs => (p.2, j + 1) :: segs
      | _ => none

/-- The contiguous sentence slice `[i, j)`. -/
def sliceSent (ss : List Sentence) (i j : Nat) : List Sentence :=
  (ss.drop i).take (j - i)

/-- Modelled from the spec: the optimal segment list, in input order. -/
def chunkerSegs (cfg : ChunkingConfig) (sim : Nat → ℚ) (ss : List Sentence) :
    Option (List (Nat × Nat)) :=
  (backtrack (dpTable cfg sim ss ss.length) ss.length ss.length).map List.reverse

/-- Modelled from the spec: a chunk aggregates its sentence slice
(§4.3.5): space-joined text, first sentence's start time, summed token
count, and the retained sentence embeddings. -/
def chunkOfSlice (sl : List Sentence) (idx : Nat) : Chunk :=
  { text := String.intercalate " " (sl.map Sentence.text),
    startTime := (match sl with | [] => "" | s :: _ => s.startTime),
    embedding := [],
    numSentences := sl.length,
    tokenCount := (sl.map Sentence.tokenCount).sum,
    chunkIndex := idx,
    sentenceEmbeddings := sl.map Sentence.embedding }

/-- Build the chunks of a segment list, assigning `chunk_index` by
position. -/
def chunksOfSegs (ss : List Sentence) (segs : List (Nat × Nat)) : List Chunk :=
  (segs.zip (List.range segs.length)).map fun p =>
    chunkOfSlice (sliceSent ss p.1.1 p.1.2) p.2

/-- Modelled from the spec: `ExtractChunksFromSentences` (§4.3) — the
DP chunker source is not under src/, only its caller in
src/main.go line 186.  The normalized adjacent similarities are
abstracted as `sim`; a missing legal predecessor is the defensive
document-level error of §7. -/
def ExtractChunksFromSentences (cfg : ChunkingConfig) (sim : Nat → ℚ)
    (ss : List Sentence) : Except String (List Chunk) :=
  if ss.isEmpty then Except.ok []
  else
    match chunkerSegs cfg sim ss with
    | none => Except.error "no legal chunking"
    | some segs => Except.ok (chunksOfSegs ss segs)

/-- The embedding model handle threaded through the pipeline.  `tok` is
the tokenizer; `embedVecs` is the opaque embedding capability of spec
§6.3 (one vector per input text, or an error); `sim` abstracts the
normalized adjacent similarities the chunker derives from the installed
embeddings. -/
structure EmbeddingModelM where
  tok : Tok
  embedVecs : List String → Except String (List (List ℚ))
  sim : List Sentence → Nat → ℚ

/-- Modelled from the spec: `EmbedSentences` — the batcher source is not
under src/.  Per §4.2 it installs one embedding vector per sentence, in
order, leaving every other field unchanged, and surfaces a capability
error verbatim. -/
def EmbedSentences (m : EmbeddingModelM) (ss : List Sentence) :
    Except String (List Sentence) :=
  (m.embedVecs (ss.map Sentence.text)).map fun vs =>
    List.zipWith (fun s v => { s with embedding := v }) ss vs

/-- Modelled from the spec: `EmbedChunks` — the batcher source is not
under src/.  Per §4.2 and §4.3.5 each chunk's embedding is computed from
its concatenated text. -/
def EmbedChunks (m : EmbeddingModelM) (cs : List Chunk) :
    Except String (List Chunk) :=
  (m.embedVecs (cs.map Chunk.text)).map fun vs =>
    List.zipWith (fun c v => { c with embedding := v }) cs vs

/-- Translation of `processText` (src/main.go lines 165-199): wrap the
text in a single frame, segment, embed the sentences, chunk, embed the
chunks. -/
def processText (m : EmbeddingModelM) (text : String)
    (chunkingConfig : ChunkingConfig) : Except String (List Chunk) :=
  let frames : List Frame := [{ text := text, startTime := "", endTime := "" }]
  let sentences := ExtractSentencesFromFrames m.tok frames
  if sentences.isEmpty then Except.ok []
  else
    match EmbedSentences m sentences with
    | Except.error e => Except.error ("failed to embed sentences: " ++ e)
    | Except.ok embedded =>
        match ExtractChunksFromSentences chunkingConfig (m.sim embedded) embedded with
        | Except.error e => Except.error ("failed to extract chunks: " ++ e)
        | Except.ok chunks =>
            match EmbedChunks m chunks with
            | Except.error e => Except.error ("failed to embed chunks: " ++ e)
            | Except.ok chunks2 => Except.ok chunks2

/-- Translation of the `EmbedRequest` struct (src/main.go lines 14-18). -/
structure EmbedRequest where
  id : String
  text : String
  chunkingConfig : Option ChunkingConfig
deriving DecidableEq

/-- Translation of the `ChunkResponse` struct (src/main.go lines 26-33). -/
structure ChunkResponse where
  text : String
  startTime : String
  embedding : List ℚ
  numSentences : Nat
  tokenCount : Nat
  chunkIndex : Nat
deriving DecidableEq

/-- Translation of the `DocumentResponse` struct (src/main.go lines
36-40); the zero value of `Chunks` is the empty list and of `Error` the
empty string. -/
structure DocumentResponse where
  id : String
  chunks : List ChunkResponse
  error : String
deriving DecidableEq

/-- The chunk-to-response conversion of src/main.go lines 150-158. -/
def toChunkResponse (c : Chunk) : ChunkResponse :=
  { text := c.text, startTime := c.startTime, embedding := c.embedding,
    numSentences := c.numSentences, tokenCount := c.tokenCount,
    chunkIndex := c.chunkIndex }

/-- Translation of `processDocument` (src/main.go lines 124-162). -/
def processDocument (m : EmbeddingModelM) (doc : EmbedRequest) : DocumentResponse :=
  if doc.text = "" then
    { id := doc.id, chunks := [], error := "Text field is required" }
  else
    let chunkingConfig :=
      match doc.chunkingConfig with
      | none => DefaultChunkingConfig
      | some c => c
    match processText m doc.text chunkingConfig with
    | Except.error e =>
        { id := doc.id, chunks := [], error := "Processing failed: " ++ e }
    | Except.ok chunks =>
        { id := doc.id, chunks := chunks.map toChunkResponse, error := "" }

/-- The observable outcome of the HTTP handler: an error status with a
message, or a JSON response listing one document response per request
document. -/
inductive HandlerOutcome where
  | httpError (status : Nat) (msg : String)
  | ok (docs : List DocumentResponse)
deriving DecidableEq

/-- Translation of `handleEmbed` (src/main.go lines 90-121).  The JSON
decode is modelled by its result: `none` when the body does not decode,
otherwise the decoded document list (a missing `documents` field decodes
to the empty list). -/
def handleEmbed (m : EmbeddingModelM) (method : String)
    (body : Option (List EmbedRequest)) : HandlerOutcome :=
  if method ≠ "POST" then HandlerOutcome.httpError 405 "Method not allowed"
  else
    match body with
    | none => HandlerOutcome.httpError 400 "Invalid request"
    | some docs =>
        if docs.length = 0 then
          HandlerOutcome.httpError 400 "At least one document is required"
        else HandlerOutcome.ok (docs.map (processDocument m))

/-- Spec-side join of accumulated frame texts: a single separating
space is written only before a text appended to a non-empty buffer
(the builder discipline of the source). -/
def joinTexts (ts : List String) : String :=
  ts.foldl appendFrameText ""

/-- Spec-side description of the accumulation phase: the frame runs, a
new run starting after every frame whose trimmed text ends in a
terminator.  `acc` holds the current run reversed. -/
def splitRunsGo (acc : List Frame) : List Frame → List (List Frame)
  | [] => if acc.isEmpty then [] else [acc.reverse]
  | f :: fs =>
      if isBoundary f.text then (acc.reverse ++ [f]) :: splitRunsGo [] fs
      else splitRunsGo (f :: acc) fs

/-- The joined text of a frame run. -/
def runText (r : List Frame) : String :=
  joinTexts (r.map Frame.text)

/-- The remembered start time of a frame run: that of its first frame. -/
def runStart (r : List Frame) : String :=
  match r with
  | [] => ""
  | f :: _ => f.startTime

/-- Spec-side description of the provisional sentences: one sentence
per frame run with non-empty joined text, carrying the run's first
frame's start time. -/
def provisionalSpec (tok : Tok) (frames : List Frame) : List Sentence :=
  (splitRunsGo [] frames).flatMap fun r =>
    if runText r = "" then [] else [mkSentence tok (runText r) (runStart r)]

/-- A tokenizer producing zero tokens for every text. -/
def tokZero : Tok := fun _ => Except.ok { ids := [] }

/-- A tokenizer producing exactly one token for every text. -/
def tokOne : Tok := fun _ => Except.ok { ids := [0] }

/-- A tokenizer whose count is the number of whitespace-separated
words of the text. -/
def tokWords : Tok := fun t => Except.ok { ids := (fields t).map fun _ => 0 }

/-- A tokenizer producing 600 tokens for every text. -/
def tokConst600 : Tok := fun _ => Except.ok { ids := List.replicate 600 0 }

/-- A tokenizer producing 500 tokens per word of the text. -/
def tokPerWord500 : Tok :=
  fun t => Except.ok { ids := List.replicate (500 * (fields t).length) 0 }

/-- A tokenizer failing on every text. -/
def tokFail : Tok := fun _ => Except.error "tokenizer failure"

/-- A concrete embedding model handle used by the witnesses. -/
def modelOne : EmbeddingModelM :=
  { tok := tokOne,
    embedVecs := fun ts => Except.ok (ts.map fun _ => [1]),
    sim := fun _ _ => 0 }

/-- A concrete request list: an empty-text document followed by a
well-formed one. -/
def docsPair : List EmbedRequest :=
  [{ id := "d0", text := "", chunkingConfig := none },
   { id := "d1", text := "Hi.", chunkingConfig := none }]

/-- Every provisional sentence stores the token count of exactly its
own emitted text. -/
theorem mem_provisionalGo_tokenCount (tok : Tok) :
    ∀ (fs : List Frame) (buf st : String) (first : Bool),
      ∀ s ∈ provisionalGo tok fs buf st first,
        s.tokenCount = CountTokens tok s.text := by
  intro fs
  induction fs with
  | nil =>
      intro buf st first s hs
      simp only [provisionalGo] at hs
      split at hs
      · simp at hs
      · simp at hs
        subst hs
        rfl
  | cons f fs ih =>
      intro buf st first s hs
      simp only [provisionalGo] at hs
      split at hs
      · rcases (List.mem_cons.mp hs) with h | h
        · subst h; rfl
        · exact ih _ _ _ s h
      · exact ih _ _ _ s hs

/-- Sentences whose stored count is within the cap pass through the
oversize pass unchanged. -/
theorem splitOversize_small (tok : Tok) (maxT : Nat) (s : Sentence)
    (h : s.tokenCount ≤ maxT) : splitOversize tok maxT s = [s] := by
  simp [splitOversize, h]

/-- C9: `DefaultChunkingConfig` returns optimal 470, max 512, lambda 2
and chunk penalty 1, and `processDocument` behaves exactly as if every
absent per-document configuration were replaced by this default, while
a supplied configuration is used unchanged. -/
theorem C9_default_config :
    DefaultChunkingConfig.optimalSize = 470 ∧
    DefaultChunkingConfig.maxSize = 512 ∧
    DefaultChunkingConfig.lambdaSize = 2 ∧
    DefaultChunkingConfig.chunkPenalty = 1 ∧
    ∀ (m : EmbeddingModelM) (doc : EmbedRequest),
      processDocument m doc =
        processDocument m
          { doc with chunkingConfig := some (doc.chunkingConfig.getD DefaultChunkingConfig) } := by
  refine ⟨rfl, rfl, rfl, rfl, ?_⟩
  intro m doc
  cases h : doc.chunkingConfig with
  | none => simp [processDocument, h]
  | some c => simp [processDocument, h]

/-- C6: a POST whose body fails to decode, or whose document list is
empty, yields HTTP 400 and no document responses. -/
theorem C6_bad_request_rejected :
    ∀ (m : EmbeddingModelM) (body : Option (List EmbedRequest)),
      body = none ∨ body = some [] →
      (∃ msg, handleEmbed m "POST" body = HandlerOutcome.httpError 400 msg) ∧
      ∀ resps, handleEmbed m "POST" body ≠ HandlerOutcome.ok resps := by
  intro m body h
  rcases h with h | h <;> subst h
  · exact ⟨⟨"Invalid request", by simp [handleEmbed]⟩,
      fun resps => by simp [handleEmbed]⟩
  · exact ⟨⟨"At least one document is required", by simp [handleEmbed]⟩,
      fun resps => by simp [handleEmbed]⟩

/-- Witness for C6 at a concrete undecodable body. -/
theorem C6_bad_request_rejected_witness :
    (∃ msg, handleEmbed modelOne "POST" none = HandlerOutcome.httpError 400 msg) ∧
    ∀ resps, handleEmbed modelOne "POST" none ≠ HandlerOutcome.ok resps :=
  C6_bad_request_rejected modelOne none (Or.inl rfl)

/-- C4: a document with empty text receives a response with a non-empty
error and no chunks, and every document of the request is still
processed independently. -/
theorem C4_empty_text_isolated :
    ∀ (m : EmbeddingModelM) (docs : List EmbedRequest) (i : Nat) (hi : i < docs.length),
      docs[i].text = "" →
      ∃ resps, handleEmbed m "POST" (some docs) = HandlerOutcome.ok resps ∧
        resps.length = docs.length ∧
        (∀ j (hj : j < docs.length),
          resps[j]? = some (processDocument m docs[j])) ∧
        ∃ r, resps[i]? = some r ∧ r.error ≠ "" ∧ r.chunks = [] := by
  intro m docs i hi he
  have hne : ¬ docs.length = 0 := by omega
  refine ⟨docs.map (processDocument m), ?_, by simp, ?_, ?_⟩
  · simp [handleEmbed, hne]
  · intro j hj
    simp [List.getElem?_map, List.getElem?_eq_getElem hj]
  · refine ⟨processDocument m docs[i], ?_, ?_, ?_⟩
    · simp [List.getElem?_map, List.getElem?_eq_getElem hi]
    · simp [processDocument, he]
    · simp [processDocument, he]

/-- Witness for C4 at a concrete two-document request. -/
theorem C4_empty_text_isolated_witness :
    ∃ resps, handleEmbed modelOne "POST" (some docsPair) = HandlerOutcome.ok resps ∧
      resps.length = docsPair.length ∧
      (∀ j (hj : j < docsPair.length),
        resps[j]? = some (processDocument modelOne docsPair[j])) ∧
      ∃ r, resps[0]? = some r ∧ r.error ≠ "" ∧ r.chunks = [] :=
  C4_empty_text_isolated modelOne docsPair 0 (by decide) (by decide)

/-- C7: a tokenizer error is interpreted as token count 0 by
`CountTokens`, and the Segmenter consequently never fails: even under a
tokenizer erroring on every text it returns a sentence list (every
sentence counted 0). -/
theorem C7_tokenizer_error_zero :
    (∀ (tok : Tok) (text msg : String),
       tok text = Except.error msg → CountTokens tok text = 0) ∧
    ∀ (tok : Tok), (∀ t, ∃ msg, tok t = Except.error msg) →
      ∀ (frames : List Frame), ∀ s ∈ ExtractSentencesFromFrames tok frames,
        s.tokenCount = 0 := by
  constructor
  · intro tok text msg h
    simp [CountTokens, h]
  · intro tok htok frames s hs
    have hzero : ∀ t, CountTokens tok t = 0 := by
      intro t
      obtain ⟨msg, hmsg⟩ := htok t
      simp [CountTokens, hmsg]
    simp only [ExtractSentencesFromFrames] at hs
    split at hs
    · simp at hs
    · obtain ⟨p, hp, hsp⟩ := List.mem_flatMap.mp hs
      have hcnt : p.tokenCount = CountTokens tok p.text :=
        mem_provisionalGo_tokenCount tok frames "" "" true p hp
      have hps : p.tokenCount ≤ 512 := by rw [hcnt, hzero]; omega
      rw [splitOversize_small tok 512 p hps] at hsp
      simp at hsp
      subst hsp
      rw [hcnt, hzero]

/-- Witness for C7 with the always-failing tokenizer. -/
theorem C7_tokenizer_error_zero_witness :
    CountTokens tokFail "Hi." = 0 ∧
    ∀ s ∈ ExtractSentencesFromFrames tokFail
        [{ text := "Hi.", startTime := "", endTime := "" }], s.tokenCount = 0 :=
  ⟨C7_tokenizer_error_zero.1 tokFail "Hi." "tokenizer failure" rfl,
   C7_tokenizer_error_zero.2 tokFail (fun _ => ⟨"tokenizer failure", rfl⟩) _⟩

/-- The greedy outer loop's word list shrinks, measured after one
iteration, because the first word is always consumed. -/
theorem splitWordsF_fuel (tok : Tok) (maxT : Nat) (st : String) :
    ∀ (n fuel : Nat) (words : List String), words.length ≤ n → words.length ≤ fuel →
      splitWordsF tok maxT st fuel words = splitWordsF tok maxT st n words := by
  intro n
  induction n with
  | zero =>
      intro fuel words h1 _
      have : words = [] := List.eq_nil_of_length_eq_zero (by omega)
      subst this
      cases fuel <;> rfl
  | succ n ih =>
      intro fuel words h1 h2
      cases words with
      | nil => cases fuel <;> rfl
      | cons w ws =>
          obtain ⟨f2, rfl⟩ : ∃ f2, fuel = f2 + 1 := by
            refine ⟨fuel - 1, ?_⟩
            simp at h2
            omega
          simp only [splitWordsF]
          congr 1
          have hlen : (ws.drop (greedyGrow tok maxT w ws).2).length ≤ ws.length := by
            simp [List.length_drop]
          exact ih f2 (ws.drop (greedyGrow tok maxT w ws).2)
            (by simp at h1; omega) (by simp at h2; omega)

/-- C10: the oversize word-splitting pass terminates for every input
and tokenizer behaviour: one outer iteration always consumes at least
the first word (strictly shrinking the remaining word list), and
consequently a fuel of `words.length` is never exhausted (the result is
stable for any larger fuel). -/
theorem C10_split_terminates :
    (∀ (tok : Tok) (maxT : Nat) (chunk : String) (ws : List String),
       (ws.drop (greedyGrow tok maxT chunk ws).2).length < ws.length + 1) ∧
    ∀ (tok : Tok) (maxT : Nat) (st : String) (words : List String) (fuel : Nat),
      words.length ≤ fuel →
      splitWordsF tok maxT st fuel words = splitWordsF tok maxT st words.length words := by
  constructor
  · intro tok maxT chunk ws
    simp [List.length_drop]
    omega
  · intro tok maxT st words fuel h
    exact splitWordsF_fuel tok maxT st words.length fuel words le_rfl h

/-- Witness for C10 at a concrete word list and oversized fuel. -/
theorem C10_split_terminates_witness :
    ((["b"].drop (greedyGrow tokOne 512 "a" ["b"]).2).length < ["b"].length + 1) ∧
    splitWordsF tokOne 512 "" 5 ["a", "b"] =
      splitWordsF tokOne 512 "" (["a", "b"] : List String).length ["a", "b"] :=
  ⟨C10_split_terminates.1 tokOne 512 "a" ["b"],
   C10_split_terminates.2 tokOne 512 "" ["a", "b"] 5 (by decide)⟩

/-- Splitting a fully-whitespace character list yields no words. -/
theorem fieldsCh_all_ws : ∀ (l : List Char), (∀ c ∈ l, c.isWhitespace) →
    fieldsCh l [] = [] := by
  intro l
  induction l with
  | nil => intro _; rfl
  | cons c cs ih =>
      intro h
      have hc : c.isWhitespace := h c (List.mem_cons_self c cs)
      simp only [fieldsCh, hc, if_true]
      simpa using ih fun x hx => h x (List.mem_cons_of_mem c hx)

/-- C5 counterexample: a single whitespace-only frame does produce a
sentence in `ExtractSentencesFromFrames` — the trailing buffer " " is
flushed — refuting the claim that whitespace-only frames never produce
sentences. -/
theorem C5_counterexample :
    ExtractSentencesFromFrames tokZero [{ text := " ", startTime := "", endTime := "" }] =
      [{ text := " ", startTime := "", embedding := [], tokenCount := 0 }] ∧
    ExtractSentencesFromFrames tokZero [{ text := " ", startTime := "", endTime := "" }] ≠ [] := by
  constructor
  · rfl
  · decide

/-- C5 amended: the Segmenter returns the empty sentence sequence for
an empty frame sequence and for empty text, and in the text-based
segmenter a whitespace-only text produces no sentences; in the
frames-based segmenter a whitespace-only frame can still be flushed as
a trailing sentence. -/
theorem C5_amended_empty_inputs :
    (∀ tok : Tok, ExtractSentencesFromFrames tok [] = []) ∧
    (∀ (tok : Tok) (maxSize : Nat), ExtractSentencesFromText tok "" maxSize = []) ∧
    ∀ (tok : Tok) (maxSize : Nat) (t : String),
      (∀ c ∈ t.toList, c.isWhitespace) → ExtractSentencesFromText tok t maxSize = [] := by
  refine ⟨fun tok => rfl, fun tok maxSize => rfl, ?_⟩
  intro tok maxSize t h
  simp only [ExtractSentencesFromText]
  split
  · rfl
  · have hf : fieldsCh t.data [] = [] := fieldsCh_all_ws t.toList h
    simp [fields, hf, textGo]

/-- Witness for C5 amended at the whitespace-only text " ". -/
theorem C5_amended_empty_inputs_witness :
    ExtractSentencesFromText tokWords " " 512 = [] :=
  C5_amended_empty_inputs.2.2 tokWords 512 " " (by decide)

/-- The greedy growth loop either never grew past its initial chunk, or
its final chunk text was itself token-counted within the cap (it is the
last candidate that passed the check). -/
theorem greedyGrow_bound (tok : Tok) (maxT : Nat) :
    ∀ (ws : List String) (chunk : String),
      ((greedyGrow tok maxT chunk ws).2 = 0 ∧ (greedyGrow tok maxT chunk ws).1 = chunk) ∨
      CountTokens tok (greedyGrow tok maxT chunk ws).1 ≤ maxT := by
  intro ws
  induction ws with
  | nil => intro chunk; left; exact ⟨rfl, rfl⟩
  | cons w ws ih =>
      intro chunk
      by_cases hc : CountTokens tok (chunk ++ " " ++ w) > maxT
      · left
        simp [greedyGrow, hc]
      · right
        simp only [greedyGrow, if_neg hc]
        rcases ih (chunk ++ " " ++ w) with ⟨_, h1⟩ | h2
        · rw [h1]; omega
        · exact h2

/-- Every sub-sentence emitted by the word-splitting loop inherits the
given start time, and its token count is within the cap provided every
single word is. -/
theorem splitWordsF_bound (tok : Tok) (maxT : Nat) (st : String) :
    ∀ (fuel : Nat) (words : List String),
      (∀ w ∈ words, CountTokens tok w ≤ maxT) →
      ∀ s ∈ splitWordsF tok maxT st fuel words,
        s.tokenCount ≤ maxT ∧ s.startTime = st := by
  intro fuel
  induction fuel with
  | zero => intro words h s hs; cases words <;> simp [splitWordsF] at hs
  | succ fuel ih =>
      intro words h s hs
      cases words with
      | nil => simp [splitWordsF] at hs
      | cons w ws =>
          simp only [splitWordsF] at hs
          rcases List.mem_cons.mp hs with h1 | h1
          · subst h1
            refine ⟨?_, rfl⟩
            show CountTokens tok (greedyGrow tok maxT w ws).1 ≤ maxT
            rcases greedyGrow_bound tok maxT ws w with ⟨_, hch⟩ | hch
            · rw [hch]; exact h w (List.mem_cons_self w ws)
            · exact hch
          · exact ih (ws.drop (greedyGrow tok maxT w ws).2)
              (fun x hx => h x (List.mem_cons_of_mem w (List.drop_subset _ ws hx))) s h1

/-- The oversize pass keeps every sentence within the cap, provided the
stored count is the count of the stored text, whitespace-only texts
count within the cap, and every single word counts within the cap. -/
theorem splitOversize_bound (tok : Tok) (maxT : Nat) (s : Sentence)
    (hcnt : s.tokenCount = CountTokens tok s.text)
    (hws : fields s.text = [] → CountTokens tok s.text ≤ maxT)
    (hword : ∀ w ∈ fields s.text, CountTokens tok w ≤ maxT) :
    ∀ r ∈ splitOversize tok maxT s, r.tokenCount ≤ maxT := by
  intro r hr
  by_cases hsmall : s.tokenCount ≤ maxT
  · rw [splitOversize_small tok maxT s hsmall] at hr
    simp at hr
    subst hr
    exact hsmall
  · simp only [splitOversize, if_neg hsmall] at hr
    by_cases hnil : (fields s.text).isEmpty
    · exfalso
      exact hsmall (hcnt ▸ hws (List.isEmpty_iff.mp hnil))
    · rw [if_neg hnil] at hr
      exact (splitWordsF_bound tok maxT s.startTime (fields s.text).length
        (fields s.text) hword r hr).1

/-- C1 counterexample: with a word-count tokenizer and a configuration
whose `max_size` is 1, the document "a b." is segmented into a sentence
of 2 tokens, which exceeds the configuration's `max_size`: the oversize
pass compares against the hard-coded 512, not the active
configuration. -/
theorem C1_counterexample :
    (ExtractSentencesFromFrames tokWords
      [{ text := "a b.", startTime := "", endTime := "" }]).map Sentence.tokenCount = [2] ∧
    ∃ s ∈ ExtractSentencesFromFrames tokWords
        [{ text := "a b.", startTime := "", endTime := "" }],
      ({ optimalSize := 1, maxSize := 1, lambdaSize := 0, chunkPenalty := 0 } :
        ChunkingConfig).maxSize < s.tokenCount := by
  decide

/-- C1 amended: every sentence produced by the Segmenter and passed to
the DP Chunker satisfies `token_count ≤ 512` — the hard-coded ceiling,
regardless of the active configuration's `max_size` — provided the
tokenizer counts whitespace-only texts and single words within 512. -/
theorem C1_amended_hard_cap :
    ∀ (tok : Tok) (frames : List Frame),
      (∀ t, fields t = [] → CountTokens tok t ≤ 512) →
      (∀ t, ∀ w ∈ fields t, CountTokens tok w ≤ 512) →
      ∀ s ∈ ExtractSentencesFromFrames tok frames, s.tokenCount ≤ 512 := by
  intro tok frames h1 h2 s hs
  simp only [ExtractSentencesFromFrames] at hs
  split at hs
  · simp at hs
  · obtain ⟨p, hp, hsp⟩ := List.mem_flatMap.mp hs
    exact splitOversize_bound tok 512 p
      (mem_provisionalGo_tokenCount tok frames "" "" true p hp)
      (h1 p.text) (h2 p.text) s hsp

/-- The sentence the C1 witness document segments into. -/
def sentHW : Sentence :=
  { text := "Hello world.", startTime := "", embedding := [], tokenCount := 1 }

/-- Witness for C1 amended with a constant one-token tokenizer, at the
concrete sentence the witness document produces. -/
theorem C1_amended_hard_cap_witness :
    sentHW ∈ ExtractSentencesFromFrames tokOne
        [{ text := "Hello world.", startTime := "", endTime := "" }] ∧
    sentHW.tokenCount ≤ 512 :=
  ⟨by decide,
   C1_amended_hard_cap tokOne
     [{ text := "Hello world.", startTime := "", endTime := "" }]
     (fun t _ => by simp [CountTokens, tokOne])
     (fun t w _ => by simp [CountTokens, tokOne])
     sentHW (by decide)⟩

set_option maxRecDepth 40000 in
/-- C3 counterexample: under a tokenizer counting 600 tokens for every
text, the greedy split of the oversized sentence "x y" emits the
single-word sub-sentence "x" with 600 tokens — above the ceiling — so
sub-sentences do not always satisfy `token_count ≤` the ceiling. -/
theorem C3_counterexample :
    512 < CountTokens tokConst600 "x y" ∧
    ∃ r ∈ splitOversize tokConst600 512
        { text := "x y", startTime := "t", embedding := [],
          tokenCount := CountTokens tokConst600 "x y" },
      ¬ r.tokenCount ≤ 512 := by
  decide

/-- C3 amended: the greedy word-splitting pass of an oversized sentence
with at least one word emits sub-sentences each carrying the parent's
`start_time`, and each within the 512-token ceiling provided every
single word of the sentence tokenizes within the ceiling. -/
theorem C3_amended_split_bound :
    ∀ (tok : Tok) (s : Sentence),
      512 < s.tokenCount →
      fields s.text ≠ [] →
      (∀ w ∈ fields s.text, CountTokens tok w ≤ 512) →
      ∀ r ∈ splitOversize tok 512 s,
        r.tokenCount ≤ 512 ∧ r.startTime = s.startTime := by
  intro tok s hbig hnil hword r hr
  have hsmall : ¬ s.tokenCount ≤ 512 := by omega
  simp only [splitOversize, if_neg hsmall] at hr
  have hne : ¬ (fields s.text).isEmpty := by
    simpa [List.isEmpty_iff] using hnil
  rw [if_neg hne] at hr
  exact splitWordsF_bound tok 512 s.startTime (fields s.text).length
    (fields s.text) hword r hr

/-- The oversized 1500-token sentence of the spec's concrete scenario
(500 tokens per word, three words). -/
def sent1500 : Sentence :=
  { text := "a b c", startTime := "t0", embedding := [],
    tokenCount := CountTokens tokPerWord500 "a b c" }

set_option maxRecDepth 40000 in
/-- Witness for C3 amended at the spec's oversize scenario: a sentence
of 1500 tokens with ceiling 512 yields at least 3 sub-sentences, each
within 512 tokens and sharing the parent's start time. -/
theorem C3_amended_split_bound_witness :
    (512 < sent1500.tokenCount ∧ sent1500.tokenCount = 1500) ∧
    (∀ r ∈ splitOversize tokPerWord500 512 sent1500,
      r.tokenCount ≤ 512 ∧ r.startTime = sent1500.startTime) ∧
    3 ≤ (splitOversize tokPerWord500 512 sent1500).length :=
  ⟨by decide,
   C3_amended_split_bound tokPerWord500 sent1500 (by decide) (by decide) (by decide),
   by decide⟩

/-- Appending one more text to the joined buffer is one builder
update. -/
theorem joinTexts_concat (ts : List String) (t : String) :
    joinTexts (ts ++ [t]) = appendFrameText (joinTexts ts) t := by
  simp [joinTexts, List.foldl_append]

/-- The start time of a run extended on the right. -/
theorem runStart_concat (l : List Frame) (f : Frame) :
    runStart (l ++ [f]) = if l = [] then f.startTime else runStart l := by
  cases l with
  | nil => simp [runStart]
  | cons a as => simp [runStart]

/-- A frame text passing the boundary test is non-empty. -/
theorem boundary_ne_empty (t : String) (h : isBoundary t = true) : t ≠ "" := by
  intro he
  subst he
  exact absurd h (by decide)

/-- The builder update with a non-empty text yields a non-empty
buffer. -/
theorem appendFrameText_ne_empty (b t : String) (ht : t ≠ "") :
    appendFrameText b t ≠ "" := by
  unfold appendFrameText
  split
  · exact ht
  · intro hc
    have hlen := congrArg String.length hc
    simp [String.length_append] at hlen
    have : t.length = 0 := by omega
    exact ht (by cases t with | mk l => cases l with
      | nil => rfl
      | cons c cs => simp [String.length] at this)

/-- The joined text of a run extended on the right. -/
theorem runText_concat (l : List Frame) (f : Frame) :
    runText (l ++ [f]) = appendFrameText (runText l) f.text := by
  simp [runText, List.map_append, joinTexts_concat]

/-- Generalized invariant tying the source's builder loop to the
run-splitting description: given that the buffer holds the joined texts
of the reversed accumulator, the flag marks an empty accumulator, and
the remembered start time is the run head's, the loop emits exactly one
sentence per non-empty-text run. -/
theorem provisionalGo_eq_runs (tok : Tok) :
    ∀ (fs acc : List Frame) (st : String),
      (acc ≠ [] → st = runStart acc.reverse) →
      provisionalGo tok fs (runText acc.reverse) st acc.isEmpty =
        (splitRunsGo acc fs).flatMap
          (fun r => if runText r = "" then []
            else [mkSentence tok (runText r) (runStart r)]) := by
  intro fs
  induction fs with
  | nil =>
      intro acc st hst
      cases acc with
      | nil => simp [provisionalGo, splitRunsGo, runText, joinTexts]
      | cons a as =>
          have hst2 := hst (by simp)
          rw [List.reverse_cons] at hst2
          simp only [provisionalGo, splitRunsGo, List.isEmpty_cons]
          simp [hst2]
  | cons f fs2 ih =>
      intro acc st hst
      by_cases hb : isBoundary f.text = true
      · have hbuf : appendFrameText (runText acc.reverse) f.text =
            runText (acc.reverse ++ [f]) := (runText_concat acc.reverse f).symm
        have hne : runText (acc.reverse ++ [f]) ≠ "" := by
          rw [← hbuf]
          exact appendFrameText_ne_empty _ _ (boundary_ne_empty f.text hb)
        have hst2 : (if acc.isEmpty = true then f.startTime else st) =
            runStart (acc.reverse ++ [f]) := by
          cases acc with
          | nil => simp [runStart]
          | cons a as =>
              rw [runStart_concat]
              simp [hst (by simp)]
        have hrec := ih [] (runStart (acc.reverse ++ [f])) (by simp)
        simp only [List.reverse_nil, List.isEmpty_nil] at hrec
        simp only [provisionalGo, splitRunsGo, hb, if_true, List.flatMap_cons,
          if_neg hne, hst2, hbuf]
        rw [show runText ([] : List Frame) = "" from rfl] at hrec
        rw [hrec]
        simp
      · have hb2 : isBoundary f.text = false := by simpa using hb
        have hbuf : appendFrameText (runText acc.reverse) f.text =
            runText ((f :: acc).reverse) := by
          rw [List.reverse_cons]
          exact (runText_concat acc.reverse f).symm
        have hst2 : (if acc.isEmpty = true then f.startTime else st) =
            runStart ((f :: acc).reverse) := by
          rw [List.reverse_cons, runStart_concat]
          cases acc with
          | nil => simp [runStart]
          | cons a as => simp [hst (by simp)]
        have hrec := ih (f :: acc) (runStart ((f :: acc).reverse))
          (fun _ => rfl)
        simp only [List.isEmpty_cons] at hrec
        simp only [provisionalGo, splitRunsGo, hb2, if_false, Bool.false_eq_true,
          hst2, hbuf]
        exact hrec

/-- C8 counterexample: with an empty-text middle frame the buffer joins
"a" and "b." with two spaces, not single spaces; and with an empty-text
first frame the remembered start time is that first frame's "t0", not
the first contributing frame's "t1". -/
theorem C8_counterexample :
    provisionalGo tokZero
      [{ text := "a", startTime := "t0", endTime := "" },
       { text := "", startTime := "t1", endTime := "" },
       { text := "b.", startTime := "t2", endTime := "" }] "" "" true =
      [{ text := "a  b.", startTime := "t0", embedding := [], tokenCount := 0 }] ∧
    "a  b." ≠ "a b." ∧
    provisionalGo tokZero
      [{ text := "", startTime := "t0", endTime := "" },
       { text := "a.", startTime := "t1", endTime := "" }] "" "" true =
      [{ text := "a.", startTime := "t0", embedding := [], tokenCount := 0 }] ∧
    "t0" ≠ "t1" := by
  decide

/-- C8 amended: the accumulation loop equals the run-splitting
description in which a separating space is written only before a text
appended to an already non-empty buffer (so empty-text frames yield
doubled spaces), the remembered start time is that of the run's first
frame whether or not it contributes text, a provisional sentence is
emitted exactly at frames whose trimmed text ends in '.', '!' or '?',
and a final non-empty buffer is flushed with the remembered start
time. -/
theorem C8_amended_accumulation :
    ∀ (tok : Tok) (frames : List Frame),
      provisionalGo tok frames "" "" true = provisionalSpec tok frames := by
  intro tok frames
  have h := provisionalGo_eq_runs tok frames [] "" (fun hc => absurd rfl hc)
  simp only [List.reverse_nil, List.isEmpty_nil] at h
  rw [show runText ([] : List Frame) = "" from rfl] at h
  exact h

/-- The prefix token array splits across a cut point. -/
theorem prefixTok_add_slice (ss : List Sentence) (i j : Nat) (hij : i ≤ j) :
    prefixTok ss j = prefixTok ss i + ((sliceSent ss i j).map Sentence.tokenCount).sum := by
  have h : j = i + (j - i) := by omega
  conv_lhs => rw [h]
  unfold prefixTok sliceSent
  rw [List.take_add, List.map_append, List.sum_append]

/-- Segment tokens of a slice are the sum of the slice's counts. -/
theorem segTokens_eq_sum (ss : List Sentence) (i j : Nat) (hij : i ≤ j) :
    segTokens ss i j = ((sliceSent ss i j).map Sentence.tokenCount).sum := by
  unfold segTokens
  rw [prefixTok_add_slice ss i j hij]
  omega

/-- A single-sentence segment weighs exactly that sentence. -/
theorem segTokens_single (ss : List Sentence) (j : Nat) (hj : j < ss.length) :
    segTokens ss j (j + 1) = ss[j].tokenCount := by
  rw [segTokens_eq_sum ss j (j + 1) (by omega)]
  unfold sliceSent
  rw [show j + 1 - j = 1 from by omega, List.drop_eq_getElem_cons hj]
  rfl

/-- A defined transition value implies the segment is legal. -/
theorem transScore_legal (cfg : ChunkingConfig) (sim : Nat → ℚ) (ss : List Sentence)
    (i j : Nat) (di v : ℚ) (h : transScore cfg sim ss i j di = some v) :
    segTokens ss i j ≤ cfg.maxSize := by
  unfold transScore sizePenalty at h
  by_cases hc : segTokens ss i j > cfg.maxSize
  · rw [if_pos hc] at h
    simp at h
  · omega

/-- A legal segment always has a transition value. -/
theorem transScore_some (cfg : ChunkingConfig) (sim : Nat → ℚ) (ss : List Sentence)
    (i j : Nat) (di : ℚ) (h : segTokens ss i j ≤ cfg.maxSize) :
    ∃ v, transScore cfg sim ss i j di = some v := by
  unfold transScore sizePenalty
  rw [if_neg (by omega)]
  by_cases h2 : segTokens ss i j ≤ cfg.optimalSize <;> simp [h2]

/-- An output of the best-candidate fold is the accumulator or one of
the candidates. -/
theorem foldl_betterKeep_mem :
    ∀ (l : List (ℚ × Nat)) (acc : Option (ℚ × Nat)) (c : ℚ × Nat),
      l.foldl betterKeep acc = some c → acc = some c ∨ c ∈ l := by
  intro l
  induction l with
  | nil => intro acc c h; exact Or.inl h
  | cons x l ih =>
      intro acc c h
      rcases ih (betterKeep acc x) c h with h2 | h2
      · cases acc with
        | none =>
            simp only [betterKeep] at h2
            right
            have hxc : x = c := Option.some.inj h2
            rw [← hxc]
            exact List.mem_cons_self x l
        | some p =>
            simp only [betterKeep] at h2
            split at h2
            · right
              have hxc : x = c := Option.some.inj h2
              rw [← hxc]
              exact List.mem_cons_self x l
            · exact Or.inl h2
      · exact Or.inr (List.mem_cons_of_mem x h2)

/-- The fold never loses a defined accumulator. -/
theorem foldl_betterKeep_some :
    ∀ (l : List (ℚ × Nat)) (p : ℚ × Nat), l.foldl betterKeep (some p) ≠ none := by
  intro l
  induction l with
  | nil => intro p h; exact Option.noConfusion h
  | cons x l ih =>
      intro p
      show l.foldl betterKeep (betterKeep (some p) x) ≠ none
      simp only [betterKeep]
      split
      · exact ih x
      · exact ih p

/-- A non-empty candidate list forces a defined best choice. -/
theorem bestChoice_ne_none (cfg : ChunkingConfig) (sim : Nat → ℚ) (ss : List Sentence)
    (t : List (Option (ℚ × Nat))) (j : Nat) (c : ℚ × Nat)
    (hc : c ∈ candidates cfg sim ss t j) :
    bestChoice cfg sim ss t j ≠ none := by
  unfold bestChoice
  cases hcand : candidates cfg sim ss t j with
  | nil => rw [hcand] at hc; exact absurd hc (List.not_mem_nil c)
  | cons x l =>
      show l.foldl betterKeep (betterKeep none x) ≠ none
      exact foldl_betterKeep_some l x

/-- What membership in the candidate list guarantees: a start index
below `j` and a legal segment. -/
theorem candidates_spec (cfg : ChunkingConfig) (sim : Nat → ℚ) (ss : List Sentence)
    (t : List (Option (ℚ × Nat))) (j : Nat) (c : ℚ × Nat)
    (h : c ∈ candidates cfg sim ss t j) :
    c.2 < j ∧ segTokens ss c.2 j ≤ cfg.maxSize := by
  unfold candidates at h
  obtain ⟨i, hi, hf⟩ := List.mem_filterMap.mp h
  cases hti : t[i]? with
  | none => rw [hti] at hf; simp at hf
  | some o =>
      cases o with
      | none => rw [hti] at hf; simp at hf
      | some q =>
          rw [hti] at hf
          dsimp only at hf
          cases hts : transScore cfg sim ss i j q.1 with
          | none => rw [hts] at hf; simp at hf
          | some v =>
              rw [hts] at hf
              simp at hf
              subst hf
              exact ⟨List.mem_range.mp hi,
                transScore_legal cfg sim ss i j q.1 v hts⟩

/-- The candidate at `i = j - 1` exists whenever the table defines the
predecessor and the single-sentence segment is legal. -/
theorem candidates_last (cfg : ChunkingConfig) (sim : Nat → ℚ) (ss : List Sentence)
    (t : List (Option (ℚ × Nat))) (j : Nat) (q : ℚ × Nat)
    (hj : 1 ≤ j) (hq : t[j - 1]? = some (some q))
    (hleg : segTokens ss (j - 1) j ≤ cfg.maxSize) :
    ∃ c, c ∈ candidates cfg sim ss t j := by
  obtain ⟨v, hv⟩ := transScore_some cfg sim ss (j - 1) j q.1 hleg
  refine ⟨(v, j - 1), ?_⟩
  unfold candidates
  refine List.mem_filterMap.mpr ⟨j - 1, List.mem_range.mpr (by omega), ?_⟩
  simp [hq, hv]

/-- Length of the DP table. -/
theorem dpTable_length (cfg : ChunkingConfig) (sim : Nat → ℚ) (ss : List Sentence) :
    ∀ j, (dpTable cfg sim ss j).length = j + 1 := by
  intro j
  induction j with
  | zero => rfl
  | succ j ih => simp [dpTable, ih]

/-- Appending one element is read back at the old length. -/
theorem getElem?_append_len {α : Type} (l : List α) (a : α) (n : Nat)
    (h : l.length = n) : (l ++ [a])[n]? = some a := by
  subst h
  exact List.getElem?_concat_length l a

/-- The table's entry 0 is the base case `dp[0] = 0`. -/
theorem dpTable_zero (cfg : ChunkingConfig) (sim : Nat → ℚ) (ss : List Sentence) :
    ∀ j, (dpTable cfg sim ss j)[0]? = some (some (0, 0)) := by
  intro j
  induction j with
  | zero => rfl
  | succ j ih =>
      show (dpTable cfg sim ss j ++ [_])[0]? = _
      rw [List.getElem?_append_left (by rw [dpTable_length]; omega)]
      exact ih

/-- Entry `j + 1` of any sufficiently long table is the best choice
computed over the table prefix of length `j + 1`. -/
theorem dpTable_succ (cfg : ChunkingConfig) (sim : Nat → ℚ) (ss : List Sentence) :
    ∀ m j, j + 1 ≤ m →
      (dpTable cfg sim ss m)[j + 1]? =
        some (bestChoice cfg sim ss (dpTable cfg sim ss j) (j + 1)) := by
  intro m
  induction m with
  | zero => intro j h; omega
  | succ m ih =>
      intro j h
      by_cases hm : j + 1 ≤ m
      · show (dpTable cfg sim ss m ++ [_])[j + 1]? = _
        rw [List.getElem?_append_left (by rw [dpTable_length]; omega)]
        exact ih j hm
      · have hjm : j = m := by omega
        subst hjm
        exact getElem?_append_len _ _ (j + 1) (dpTable_length cfg sim ss j)

/-- Earlier table entries are stable as the table grows. -/
theorem dpTable_mono (cfg : ChunkingConfig) (sim : Nat → ℚ) (ss : List Sentence) :
    ∀ m j, j ≤ m → (dpTable cfg sim ss m)[j]? = (dpTable cfg sim ss j)[j]? := by
  intro m
  induction m with
  | zero =>
      intro j h
      have : j = 0 := by omega
      subst this
      rfl
  | succ m ih =>
      intro j h
      by_cases hm : j ≤ m
      · show (dpTable cfg sim ss m ++ [_])[j]? = _
        rw [List.getElem?_append_left (by rw [dpTable_length]; omega)]
        exact ih j hm
      · have : j = m + 1 := by omega
        subst this
        rfl

/-- Under the fits precondition every DP entry is defined. -/
theorem dpTable_defined (cfg : ChunkingConfig) (sim : Nat → ℚ) (ss : List Sentence)
    (hfit : ∀ s ∈ ss, s.tokenCount ≤ cfg.maxSize) :
    ∀ j, j ≤ ss.length → ∃ p, (dpTable cfg sim ss ss.length)[j]? = some (some p) := by
  intro j
  induction j with
  | zero => intro _; exact ⟨(0, 0), dpTable_zero cfg sim ss ss.length⟩
  | succ j ih =>
      intro hj
      obtain ⟨q, hq⟩ := ih (by omega)
      have hq2 : (dpTable cfg sim ss j)[j]? = some (some q) := by
        rw [← dpTable_mono cfg sim ss ss.length j (by omega)]
        exact hq
      have hjlen : j < ss.length := by omega
      have hleg : segTokens ss j (j + 1) ≤ cfg.maxSize := by
        rw [segTokens_single ss j hjlen]
        exact hfit ss[j] (List.getElem_mem hjlen)
      obtain ⟨c, hc⟩ := candidates_last cfg sim ss (dpTable cfg sim ss j) (j + 1) q
        (by omega) hq2 hleg
      have hne := bestChoice_ne_none cfg sim ss (dpTable cfg sim ss j) (j + 1) c hc
      obtain ⟨p, hp⟩ := Option.ne_none_iff_exists.mp hne
      refine ⟨p, ?_⟩
      rw [dpTable_succ cfg sim ss ss.length j hj, ← hp]

/-- Backtracking from a defined table tiles the first `j` sentences in
order with legal segments. -/
theorem backtrack_spec (cfg : ChunkingConfig) (sim : Nat → ℚ) (ss : List Sentence)
    (hfit : ∀ s ∈ ss, s.tokenCount ≤ cfg.maxSize) :
    ∀ (fuel j : Nat), j ≤ fuel → j ≤ ss.length →
      ∃ segs, backtrack (dpTable cfg sim ss ss.length) fuel j = some segs ∧
        ((segs.reverse.map fun p => sliceSent ss p.1 p.2).flatten = ss.take j) ∧
        ∀ p ∈ segs, p.1 < p.2 ∧ p.2 ≤ ss.length ∧
          segTokens ss p.1 p.2 ≤ cfg.maxSize := by
  intro fuel
  induction fuel with
  | zero =>
      intro j h1 _
      have : j = 0 := by omega
      subst this
      exact ⟨[], rfl, by simp, by simp⟩
  | succ fuel ih =>
      intro j h1 h2
      cases j with
      | zero => exact ⟨[], rfl, by simp, by simp⟩
      | succ j =>
          obtain ⟨p, hp⟩ := dpTable_defined cfg sim ss hfit (j + 1) h2
          have hbc : bestChoice cfg sim ss (dpTable cfg sim ss j) (j + 1) = some p := by
            have hsucc := dpTable_succ cfg sim ss ss.length j h2
            rw [hsucc] at hp
            exact Option.some.inj hp
          have hcand : p ∈ candidates cfg sim ss (dpTable cfg sim ss j) (j + 1) := by
            rcases foldl_betterKeep_mem
              (candidates cfg sim ss (dpTable cfg sim ss j) (j + 1)) none p hbc with h | h
            · exact absurd h (by simp)
            · exact h
          obtain ⟨hlt, hleg⟩ :=
            candidates_spec cfg sim ss (dpTable cfg sim ss j) (j + 1) p hcand
          obtain ⟨segs, hback, hjoin, hprops⟩ := ih p.2 (by omega) (by omega)
          refine ⟨(p.2, j + 1) :: segs, ?_, ?_, ?_⟩
          · show (match (dpTable cfg sim ss ss.length)[j + 1]? with
              | some (some p) =>
                  (backtrack (dpTable cfg sim ss ss.length) fuel p.2).map
                    fun segs => (p.2, j + 1) :: segs
              | _ => none) = some ((p.2, j + 1) :: segs)
            rw [hp]
            simp [hback]
          · rw [List.reverse_cons, List.map_append, List.flatten_append, hjoin]
            show ss.take p.2 ++ (sliceSent ss p.2 (j + 1) ++ []) = ss.take (j + 1)
            rw [List.append_nil]
            conv_rhs => rw [show j + 1 = p.2 + (j + 1 - p.2) by omega]
            rw [List.take_add]
            rfl
          · intro x hx
            rcases List.mem_cons.mp hx with h | h
            · rw [h]
              exact ⟨hlt, h2, hleg⟩
            · exact hprops x h

/-- C2: for every sentence sequence whose members fit the
configuration, the DP chunker succeeds, its chunks' sentence slices
concatenate to the input exactly once and in order, and every emitted
chunk's token count is within `max_size` — for every similarity
assignment. -/
theorem C2_chunker_partition :
    ∀ (cfg : ChunkingConfig) (sim : Nat → ℚ) (ss : List Sentence),
      ss ≠ [] →
      (∀ s ∈ ss, s.tokenCount ≤ cfg.maxSize) →
      ∃ segs, chunkerSegs cfg sim ss = some segs ∧
        (segs.map fun p => sliceSent ss p.1 p.2).flatten = ss ∧
        ExtractChunksFromSentences cfg sim ss = Except.ok (chunksOfSegs ss segs) ∧
        ∀ c ∈ chunksOfSegs ss segs, c.tokenCount ≤ cfg.maxSize := by
  intro cfg sim ss hne hfit
  obtain ⟨segs, hback, hjoin, hprops⟩ :=
    backtrack_spec cfg sim ss hfit ss.length ss.length le_rfl le_rfl
  have hcs : chunkerSegs cfg sim ss = some segs.reverse := by
    unfold chunkerSegs
    rw [hback]
    rfl
  refine ⟨segs.reverse, hcs, ?_, ?_, ?_⟩
  · rw [List.take_length] at hjoin
    exact hjoin
  · unfold ExtractChunksFromSentences
    rw [if_neg (by simpa [List.isEmpty_iff] using hne), hcs]
  · intro c hc
    unfold chunksOfSegs at hc
    obtain ⟨q, hq, hcq⟩ := List.mem_map.mp hc
    have hq2 : (q.1, q.2) ∈ segs.reverse.zip (List.range segs.reverse.length) := by
      simpa using hq
    have hmem : q.1 ∈ segs := List.mem_reverse.mp (List.of_mem_zip hq2).1
    obtain ⟨h1, _, h3⟩ := hprops q.1 hmem
    rw [← hcq]
    show ((sliceSent ss q.1.1 q.1.2).map Sentence.tokenCount).sum ≤ cfg.maxSize
    rw [← segTokens_eq_sum ss q.1.1 q.1.2 (le_of_lt h1)]
    exact h3

/-- The two embedded sentences of the C2 witness. -/
def ssPair : List Sentence :=
  [{ text := "Hi.", startTime := "", embedding := [1], tokenCount := 1 },
   { text := "Yo.", startTime := "", embedding := [1], tokenCount := 1 }]

/-- Witness for C2 at a concrete two-sentence input with the default
configuration. -/
theorem C2_chunker_partition_witness :
    ∃ segs, chunkerSegs DefaultChunkingConfig (fun _ => 0) ssPair = some segs ∧
      (segs.map fun p => sliceSent ssPair p.1 p.2).flatten = ssPair ∧
      ExtractChunksFromSentences DefaultChunkingConfig (fun _ => 0) ssPair =
        Except.ok (chunksOfSegs ssPair segs) ∧
      ∀ c ∈ chunksOfSegs ssPair segs, c.tokenCount ≤ DefaultChunkingConfig.maxSize :=
  C2_chunker_partition DefaultChunkingConfig (fun _ => 0) ssPair (by decide) (by decide)

end SemChunk
